import Mathlib

/-!
# Verification of the Bedrock code-generator core (`streamlit-app.py`)

This file gives a shallow embedding, over `List Char` and `String`, of the
three core functions of the source file `src/streamlit-app.py`:

* `extract_file_references` (source lines 229-345): the multi-file
  extraction parser,
* `invoke_claude_model` (source lines 103-180): the retry/backoff caller,
* `generate_code_in_stages` (source lines 73-100): the 3-stage orchestrator,

and proves the specification claims about them.

Python strings are modelled as `List Char`; the regular expressions of the
source are modelled by explicit matching functions, each documented with the
regex it embeds.  The character classes `\w`, `\s`, `\d` are modelled at
their ASCII meaning (the inputs of interest are ASCII; Python's `re` on
`str` additionally accepts non-ASCII word/space characters).
-/

/-- The backtick character, written by escape to keep it out of the code. -/
def backquote : Char := '\x60'

/-- Python `\s` (ASCII): the whitespace characters stripped by `str.strip()`
and matched by `\s` in the source's regexes. -/
def isSpaceChar (c : Char) : Bool :=
  c = ' ' || c = '\t' || c = '\n' || c = '\r' || c = '\x0b' || c = '\x0c'

/-- Python `\w` (ASCII): letters, digits and underscore. -/
def isWordChar (c : Char) : Bool :=
  c.isAlphanum || c = '_'

/-- The character class `[\w\-./]` used by every path token in the source's
regexes: word characters plus hyphen, dot and slash. -/
def isPathChar (c : Char) : Bool :=
  isWordChar c || c = '-' || c = '.' || c = '/'

/-- The fence delimiter, three backticks, as a character list. -/
def fence3 : List Char := [backquote, backquote, backquote]

/-- Python `s.lstrip()` on our model: drop leading whitespace. -/
def lstripSpaces (cs : List Char) : List Char :=
  cs.dropWhile isSpaceChar

/-- Python `s.rstrip()` on our model: drop trailing whitespace. -/
def rstripSpaces (cs : List Char) : List Char :=
  (cs.reverse.dropWhile isSpaceChar).reverse

/-- Python `s.strip()` on our model (source pervasively strips lines). -/
def pyStrip (cs : List Char) : List Char :=
  rstripSpaces (lstripSpaces cs)

/-- Python `code.split('\n')` (source line 231): split at every newline,
keeping empty segments; a string with `n` newlines yields `n + 1` lines. -/
def splitLines : List Char → List (List Char)
  | [] => [[]]
  | c :: t =>
    if c = '\n' then [] :: splitLines t
    else
      match splitLines t with
      | h :: r => (c :: h) :: r
      | [] => [[c]]

/-- Python `'\n'.join(lines)` (source lines 285, 310). -/
def joinLines : List (List Char) → List Char
  | [] => []
  | l :: ls => if ls.isEmpty then l else l ++ '\n' :: joinLines ls

/-- Python `code.split('```')` (source line 324): split at each leftmost
non-overlapping occurrence of three backticks. -/
def splitTicks : List Char → List (List Char)
  | a :: b :: c :: t =>
    if a = backquote ∧ b = backquote ∧ c = backquote then
      [] :: splitTicks t
    else
      match splitTicks (b :: c :: t) with
      | h :: r => (a :: h) :: r
      | [] => [[a]]
  | [a, b] => [[a, b]]
  | [a] => [[a]]
  | [] => [[]]

/-- One extracted file record: the dict `{'path': ..., 'content': ...}`
appended to `files` in the source. -/
structure ExtractedFile where
  path : List Char
  content : List Char
deriving DecidableEq, Repr

/-- Full-string match of the path token `[\w\-./]+\.\w+` that appears in all
five patterns of the source: one or more path characters, a literal dot,
then one or more word characters.  Equivalently (because the extension can
contain no dot): the maximal word-character suffix is nonempty, is preceded
by a dot, and the dot is preceded by a nonempty run of path characters. -/
def isFileToken (cs : List Char) : Bool :=
  let r := cs.reverse
  let ext := r.takeWhile isWordChar
  !ext.isEmpty &&
    match r.dropWhile isWordChar with
    | c :: stem => c = '.' && !stem.isEmpty && stem.all isPathChar
    | [] => false

/-- `re.search` of alternative 1a of pattern 1 (source line 239):
`\*\*([\w\-./]+\.\w+)\*\*`, unanchored.  The search advances one position
at a time; at a position starting with `**`, the token must be the maximal
path-character run after the `**` (backtracking cannot stop earlier because
no path character is a `*`), must satisfy the token shape, and must be
followed immediately by `**`. -/
def findBoldPath : List Char → Option (List Char)
  | c1 :: c2 :: rest =>
    if c1 = '*' ∧ c2 = '*' then
      let run := rest.takeWhile isPathChar
      if isFileToken run ∧ ['*', '*'].isPrefixOf (rest.dropWhile isPathChar) then
        some run
      else
        findBoldPath (c2 :: rest)
    else
      findBoldPath (c2 :: rest)
  | _ => none

/-- Alternative 1b of pattern 1 (source line 239): `^([\w\-./]+\.\w+):$` —
the whole line is a path token followed by a colon. -/
def colonPathMatch (line : List Char) : Option (List Char) :=
  match line.reverse with
  | c :: rt =>
    if c = ':' then
      if isFileToken rt.reverse then some rt.reverse else none
    else none
  | [] => none

/-- Alternative 1c of pattern 1 (source line 239): `^#\s+([\w\-./]+\.\w+)$` —
a heading marker, one or more spaces, then a path token to end of line.
The `\s+` must be the maximal whitespace run (a token starts with a
non-whitespace character). -/
def headingPathMatch (line : List Char) : Option (List Char) :=
  match line with
  | c :: rest =>
    if c = '#' then
      let ws := rest.takeWhile isSpaceChar
      if ws.isEmpty then none
      else
        let tok := rest.dropWhile isSpaceChar
        if isFileToken tok then some tok else none
    else none
  | [] => none

/-- The groups of the pattern-1 regex match (source line 239):
`\*\*(...)\*\*|^(...):$|^#\s+(...)$`.  `none` means the regex did not match
the line; `some gs` returns the triple `m.groups()`, where exactly the
group of the alternative that matched is set.  The three alternatives are
mutually exclusive on any single line (an anchored 1b/1c line consists of
path/whitespace/marker characters only and so cannot contain `**`), so the
leftmost-position, first-alternative order of `re.search` coincides with
trying 1a, then 1b, then 1c. -/
def file_header_groups (line : List Char) :
    Option (Option (List Char) × Option (List Char) × Option (List Char)) :=
  match findBoldPath line with
  | some p => some (some p, none, none)
  | none =>
    match colonPathMatch line with
    | some p => some (none, some p, none)
    | none =>
      match headingPathMatch line with
      | some p => some (none, none, some p)
      | none => none

/-- Python `next(g for g in file_header_match.groups() if g is not None)`
(source line 258); `none` models the `StopIteration` exception that would
escape if every group were `None`. -/
def firstSomeGroup :
    Option (List Char) × Option (List Char) × Option (List Char) →
      Option (List Char)
  | (some p, _, _) => some p
  | (none, some p, _) => some p
  | (none, none, g) => g

/-- Pattern 2 (source line 242): `^\d+\.\s+([\w\-./]+\.\w+)\s*$` — numbering,
a dot, whitespace, then a path token, then optional trailing whitespace.
The digit run and each whitespace run must be maximal (the following
literal is not a digit/whitespace character), and the trailing `\s*$`
makes the token the right-stripped remainder. -/
def numberedFileMatch (line : List Char) : Option (List Char) :=
  let ds := line.takeWhile Char.isDigit
  if ds.isEmpty then none
  else
    match line.dropWhile Char.isDigit with
    | c :: rest =>
      if c = '.' then
        let ws := rest.takeWhile isSpaceChar
        if ws.isEmpty then none
        else
          let tok := rstripSpaces (rest.dropWhile isSpaceChar)
          if isFileToken tok then some tok else none
      else none
    | [] => none

/-- Pattern 3 (source line 245): `re.search` of
`//\s*filename:\s*([\w\-./]+\.\w+)\s*$`, unanchored at the left.  At each
`//` the whitespace runs are maximal, `filename:` must follow, and the
captured token is the right-stripped rest of the line. -/
def commentFileMatch : List Char → Option (List Char)
  | c1 :: c2 :: rest =>
    if c1 = '/' ∧ c2 = '/' then
      let r1 := rest.dropWhile isSpaceChar
      if "filename:".toList.isPrefixOf r1 then
        let tok := rstripSpaces ((r1.drop 9).dropWhile isSpaceChar)
        if isFileToken tok then some tok else commentFileMatch (c2 :: rest)
      else commentFileMatch (c2 :: rest)
    else commentFileMatch (c2 :: rest)
  | _ => none

/-- Pattern 4's regex (source line 249): `^([\w\-./]+\.\w+)\s*$` — the whole
line is a path token plus optional trailing whitespace.  (The scan only
runs this when the next line opens a fence.) -/
def bareTokenMatch (line : List Char) : Option (List Char) :=
  let tok := rstripSpaces line
  if isFileToken tok then some tok else none

/-- Pattern 5 (source line 296): `^```\w*:([\w\-./]+\.\w+)$` — a fence
opener carrying a path after a colon, e.g. three backticks, `js`,
`:src/app.js`. -/
def codeBlockWithPathMatch (line : List Char) : Option (List Char) :=
  if fence3.isPrefixOf line then
    let rest := line.drop 3
    match rest.dropWhile isWordChar with
    | c :: tok => if c = ':' then (if isFileToken tok then some tok else none) else none
    | [] => none
  else none

/-- Source lines 238-264: evaluate patterns 1-4 on the (stripped) current
line — pattern 4 only when the next line, if any, opens a fence — and, when
at least one matched, extract the path from whichever match succeeded, in
the source's `if`/`elif` order.  `none`: no pattern matched.
`some (Except.error _)`: a Python exception would escape (the
`StopIteration` of line 258; or `file_path` unbound, which the guard makes
impossible). -/
def extractPath14 (line : List Char) (next? : Option (List Char)) :
    Option (Except String (List Char)) :=
  let fhm := file_header_groups line
  let nfm := numberedFileMatch line
  let cfm := commentFileMatch line
  let fbm :=
    match next? with
    | some nl => if fence3.isPrefixOf (pyStrip nl) then bareTokenMatch line else none
    | none => none
  if fhm.isSome || nfm.isSome || cfm.isSome || fbm.isSome then
    some
      (match fhm with
       | some gs =>
         match firstSomeGroup gs with
         | some p => Except.ok p
         | none => Except.error "StopIteration"
       | none =>
         match nfm with
         | some p => Except.ok p
         | none =>
           match cfm with
           | some p => Except.ok p
           | none =>
             match fbm with
             | some p => Except.ok p
             | none => Except.error "file_path referenced before assignment")
  else none

/-- Source lines 267-273: advance `j` until a line whose stripped form
starts with three backticks; return the lines after that opening fence, or
`none` if the end of input is reached first. -/
def findOpeningFence : List (List Char) → Option (List (List Char))
  | [] => none
  | l :: t => if fence3.isPrefixOf (pyStrip l) then some t else findOpeningFence t

/-- Source lines 277-280 (and 302-305): collect raw lines until a line whose
stripped form is exactly three backticks.  Returns the collected content and
the lines after the closing fence (all input consumed when no closer
exists, matching `i = j` at end of input). -/
def collectUntilClose : List (List Char) → List (List Char) × List (List Char)
  | [] => ([], [])
  | l :: t =>
    if pyStrip l = fence3 then ([], t)
    else
      match collectUntilClose t with
      | (c, r) => (l :: c, r)

theorem collectUntilClose_rest_length (ls : List (List Char)) :
    (collectUntilClose ls).2.length ≤ ls.length := by
  induction ls with
  | nil => simp [collectUntilClose]
  | cons l t ih =>
    by_cases h : pyStrip l = fence3
    · simp [collectUntilClose, h]
    · simpa [collectUntilClose, h] using Nat.le_succ_of_le ih

theorem findOpeningFence_length {ls t : List (List Char)}
    (h : findOpeningFence ls = some t) : t.length < ls.length := by
  induction ls with
  | nil => simp [findOpeningFence] at h
  | cons l r ih =>
    by_cases hl : fence3.isPrefixOf (pyStrip l)
    · simp only [findOpeningFence, hl, if_pos, Option.some.injEq] at h
      subst h
      exact Nat.lt_succ_self _
    · simp only [findOpeningFence, hl] at h
      exact Nat.lt_succ_of_lt (ih (by simpa using h))

/-- The scanning loop of `extract_file_references` (source lines 234-320),
as recursion on the suffix of lines not yet visited (the loop only ever
moves the cursor forward).  Each step strips the current line, tries
patterns 1-4, pairs a match with the next fenced block, falls through to
pattern 5 when patterns 1-4 fail or their fence search hits end of input,
and otherwise advances one line.  An `Except.error` propagates the Python
exception from the path-extraction step. -/
def scanLines : List (List Char) → Except String (List ExtractedFile)
  | [] => Except.ok []
  | l :: rest =>
    let line := pyStrip l
    match extractPath14 line rest.head? with
    | some (Except.error e) => Except.error e
    | some (Except.ok path) =>
      match hfence : findOpeningFence rest with
      | some afterOpen =>
        match scanLines (collectUntilClose afterOpen).2 with
        | Except.ok fs =>
          Except.ok (⟨path, joinLines (collectUntilClose afterOpen).1⟩ :: fs)
        | Except.error e => Except.error e
      | none =>
        match codeBlockWithPathMatch line with
        | some path5 =>
          match scanLines (collectUntilClose rest).2 with
          | Except.ok fs =>
            Except.ok (⟨path5, joinLines (collectUntilClose rest).1⟩ :: fs)
          | Except.error e => Except.error e
        | none => scanLines rest
    | none =>
      match codeBlockWithPathMatch line with
      | some path5 =>
        match scanLines (collectUntilClose rest).2 with
        | Except.ok fs =>
          Except.ok (⟨path5, joinLines (collectUntilClose rest).1⟩ :: fs)
        | Except.error e => Except.error e
      | none => scanLines rest
termination_by ls => ls.length
decreasing_by
  all_goals simp only [List.length_cons]
  all_goals
    first
    | exact Nat.lt_succ_self _
    | exact Nat.lt_succ_of_le
        (Nat.le_trans (collectUntilClose_rest_length _)
          (Nat.le_of_lt (findOpeningFence_length hfence)))
    | exact Nat.lt_succ_of_le (collectUntilClose_rest_length _)

/-- Source lines 328-331: if the first enclosed segment contains a newline,
drop everything through the first newline (the language-identifier line). -/
def dropFirstLine (cc : List Char) : List Char :=
  if cc.contains '\n' then ((cc.dropWhile (fun c => c ≠ '\n')).drop 1) else cc

/-- `extract_file_references` (source lines 229-345).  Scans the lines for
the five patterns, then applies the two fallbacks: the single-fenced-block
default (lines 322-335, guarded by `len(files) == 0 and '```' in code` and
`len(code_parts) >= 3`) and the default-file branch (lines 337-343, whose
guard `len(files) == 0 and len(code) > 100 and not all(f['path'] for f in
files)` is modelled verbatim).  `Except.error` marks a Python exception
escaping the call. -/
def extract_file_references (code : List Char) : Except String (List ExtractedFile) :=
  match scanLines (splitLines code) with
  | Except.error e => Except.error e
  | Except.ok files0 =>
    let files1 :=
      if files0.length = 0 ∧ 2 ≤ (splitTicks code).length then
        match splitTicks code with
        | _ :: cc :: _ :: _ => files0 ++ [⟨"app.js".toList, dropFirstLine cc⟩]
        | _ => files0
      else files0
    let files2 :=
      if files1.length = 0 ∧ 100 < code.length ∧ ¬(∀ f ∈ files1, f.path ≠ []) then
        files1 ++ [⟨"app.js".toList, pyStrip code⟩]
      else files1
    Except.ok files2

/-! ## The Backoff Caller (`invoke_claude_model`, source lines 103-180) -/

deriving instance DecidableEq for Except

/-- Observable outcome of one run of `invoke_claude_model`: the value
returned or exception raised, the number of Bedrock call attempts made, the
backoff sleeps performed (source line 175), in order, and whether the
truncation branch (source lines 157-161) fired. -/
structure InvokeTrace where
  result : Except String String
  attempts : Nat
  sleeps : List Nat
  truncated : Bool
deriving DecidableEq, Repr

/-- The `while retries <= max_retries` loop of `invoke_claude_model`
(source lines 136-180).  The remote Bedrock call is modelled by the oracle
`call`, where `call r` is the outcome of the attempt made while the retry
counter equals `r` (the counter only advances on failure, so `call r` is
the `(r+1)`-st attempt).  On success the response text is appended to
`full_response`; if its length is at least `2000 * 0.9 = 1800` (the
per-call token ceiling `max_tokens_per_request = 2000`, source lines 115
and 157) the loop breaks with the truncation log and `full_response` is
returned at line 180, otherwise `full_response` is returned at line 164.
On failure the counter advances; if attempts remain the loop sleeps
`2 ** retries` seconds and retries, otherwise the underlying exception is
re-raised (source line 178). -/
def invokeLoop (call : Nat → Except String String) (max_retries : Nat)
    (retries : Nat) (sleeps : List Nat) (full_response : String) : InvokeTrace :=
  if retries ≤ max_retries then
    match call retries with
    | Except.ok response_text =>
      let full2 := full_response ++ response_text
      if 1800 ≤ response_text.length then
        InvokeTrace.mk (Except.ok full2) (retries + 1) sleeps true
      else
        InvokeTrace.mk (Except.ok full2) (retries + 1) sleeps false
    | Except.error e =>
      let retries2 := retries + 1
      if retries2 ≤ max_retries then
        invokeLoop call max_retries retries2 (sleeps ++ [2 ^ retries2]) full_response
      else
        InvokeTrace.mk (Except.error e) (retries + 1) sleeps false
  else
    InvokeTrace.mk (Except.ok full_response) retries sleeps false
termination_by max_retries + 1 - retries
decreasing_by omega

/-- `invoke_claude_model` (source line 103): run the retry loop from
`retries = 0` with an empty `full_response`; the default `max_retries`
is 3. -/
def invoke_claude_model (call : Nat → Except String String)
    (max_retries : Nat := 3) : InvokeTrace :=
  invokeLoop call max_retries 0 [] ""

/-! ## The Stage Orchestrator (`generate_code_in_stages`, source lines 73-100) -/

/-- Observable outcome of `generate_code_in_stages`: the returned text and
the `(system_prompt, user_prompt)` pairs passed to `invoke_claude_model`,
in call order. -/
structure StageTrace where
  result : String
  calls : List (String × String)

/-- Suffix appended to the base prompt for stage 1 (source line 77). -/
def stage1Instruction : String :=
  "\n\nStart by generating the overall structure of the Node.js Express API with the main file organization and essential imports."

/-- Text between the base prompt and the embedded stage-1 result in the
stage-2 prompt (source line 85). -/
def stage2Instruction : String :=
  "\n\nBased on the following initial code structure, please expand it with detailed model definitions and utility functions:\n\n"

/-- Text between the base prompt and the embedded stage-2 result in the
stage-3 prompt (source line 93). -/
def stage3Instruction : String :=
  "\n\nBased on the following code with models and utilities, please complete the implementation with detailed route handlers and OpenSearch integration:\n\n"

/-- `generate_code_in_stages` (source lines 73-100), with the Backoff
Caller abstracted as the oracle `invoke`: three chained calls, the prompt
of each later stage embedding the previous stage's full result verbatim,
returning stage 3's result unconditionally. -/
def generate_code_in_stages (invoke : String → String → String)
    (system_prompt user_prompt : String) : StageTrace :=
  let stage1_prompt := user_prompt ++ stage1Instruction
  let stage1_result := invoke system_prompt stage1_prompt
  let stage2_prompt := user_prompt ++ stage2Instruction ++ stage1_result
  let stage2_result := invoke system_prompt stage2_prompt
  let stage3_prompt := user_prompt ++ stage3Instruction ++ stage2_result
  let final_result := invoke system_prompt stage3_prompt
  StageTrace.mk final_result
    [(system_prompt, stage1_prompt), (system_prompt, stage2_prompt),
     (system_prompt, stage3_prompt)]

/-- `a` occurs as a contiguous literal substring of `b`. -/
def SubstringOf (a b : String) : Prop :=
  ∃ x y, b = x ++ a ++ y

/-! ## Character-class and token lemmas -/

theorem bool_pred_ne {p : Char → Bool} {c d : Char} (h : p c = true)
    (hd : p d = false) : c ≠ d := by
  intro e
  subst e
  rw [h] at hd
  exact absurd hd (by simp)

theorem isSpaceChar_cases {c : Char} (h : isSpaceChar c = true) :
    c = ' ' ∨ c = '\t' ∨ c = '\n' ∨ c = '\r' ∨ c = '\x0b' ∨ c = '\x0c' := by
  simp only [isSpaceChar, Bool.or_eq_true, decide_eq_true_eq] at h
  tauto

theorem word_not_space {c : Char} (h : isWordChar c = true) :
    isSpaceChar c = false := by
  cases hs : isSpaceChar c with
  | false => rfl
  | true =>
    rcases isSpaceChar_cases hs with rfl | rfl | rfl | rfl | rfl | rfl <;>
      exact absurd h (by decide)

theorem word_to_path {c : Char} (h : isWordChar c = true) :
    isPathChar c = true := by
  simp [isPathChar, h]

theorem path_not_space {c : Char} (h : isPathChar c = true) :
    isSpaceChar c = false := by
  simp only [isPathChar, Bool.or_eq_true, decide_eq_true_eq] at h
  rcases h with ((h | rfl) | rfl) | rfl
  · exact word_not_space h
  all_goals decide

theorem isFileToken_parts {cs : List Char} (h : isFileToken cs = true) :
    ∃ stem ext : List Char,
      cs = stem.reverse ++ '.' :: ext.reverse ∧ ext ≠ [] ∧ stem ≠ [] ∧
        (∀ c ∈ ext, isWordChar c = true) ∧ (∀ c ∈ stem, isPathChar c = true) := by
  simp only [isFileToken, Bool.and_eq_true] at h
  obtain ⟨hext, hmatch⟩ := h
  rcases hd : cs.reverse.dropWhile isWordChar with _ | ⟨c, stem⟩
  · rw [hd] at hmatch
    exact absurd hmatch (by simp)
  · rw [hd] at hmatch
    simp only [Bool.and_eq_true, decide_eq_true_eq, List.all_eq_true] at hmatch
    obtain ⟨⟨hdot, hstem_ne⟩, hstem⟩ := hmatch
    subst hdot
    refine ⟨stem, cs.reverse.takeWhile isWordChar, ?_, ?_, ?_, ?_, ?_⟩
    · have hsplit : cs.reverse.takeWhile isWordChar ++ '.' :: stem = cs.reverse := by
        rw [← hd]
        exact List.takeWhile_append_dropWhile isWordChar cs.reverse
      have := congrArg List.reverse hsplit
      simpa using this.symm
    · intro he
      rw [he] at hext
      exact absurd hext (by simp)
    · intro he
      simp [he] at hstem_ne
    · intro c hc
      exact List.mem_takeWhile_imp hc
    · intro c hc
      exact hstem c hc

theorem isFileToken_ne_nil {cs : List Char} (h : isFileToken cs = true) :
    cs ≠ [] := by
  obtain ⟨stem, ext, heq, -, -, -, -⟩ := isFileToken_parts h
  subst heq
  simp

theorem isFileToken_all_path {cs : List Char} (h : isFileToken cs = true) :
    ∀ c ∈ cs, isPathChar c = true := by
  obtain ⟨stem, ext, heq, -, -, hext, hstem⟩ := isFileToken_parts h
  subst heq
  intro c hc
  simp only [List.mem_append, List.mem_cons, List.mem_reverse] at hc
  rcases hc with hc | rfl | hc
  · exact hstem c hc
  · decide
  · exact word_to_path (hext c hc)

/-! ## Strip, split and join lemmas -/

theorem dropWhile_eq_self_of {p : Char → Bool} {l : List Char}
    (h : ∀ c ∈ l, p c = false) : l.dropWhile p = l := by
  cases l with
  | nil => rfl
  | cons c t => simp [List.dropWhile_cons, h c (by simp)]

theorem rstripSpaces_eq_self {l : List Char}
    (h : ∀ c ∈ l, isSpaceChar c = false) : rstripSpaces l = l := by
  unfold rstripSpaces
  rw [dropWhile_eq_self_of (fun c hc => h c (by simpa using hc))]
  simp

theorem pyStrip_eq_self {l : List Char}
    (h : ∀ c ∈ l, isSpaceChar c = false) : pyStrip l = l := by
  unfold pyStrip lstripSpaces
  rw [dropWhile_eq_self_of h]
  exact rstripSpaces_eq_self h

theorem splitLines_cons_ne {c : Char} (t : List Char) (hc : c ≠ '\n') :
    splitLines (c :: t) =
      match splitLines t with
      | h :: r => (c :: h) :: r
      | [] => [[c]] := by
  simp [splitLines, hc]

theorem splitLines_no_nl {l : List Char} (h : '\n' ∉ l) : splitLines l = [l] := by
  induction l with
  | nil => rfl
  | cons c t ih =>
    have hc : c ≠ '\n' := fun e => h (e ▸ List.mem_cons_self c t)
    rw [splitLines_cons_ne t hc, ih (fun hm => h (List.mem_cons_of_mem c hm))]

theorem splitLines_append_nl {l rest : List Char} (h : '\n' ∉ l) :
    splitLines (l ++ '\n' :: rest) = l :: splitLines rest := by
  induction l with
  | nil => simp [splitLines]
  | cons c t ih =>
    have hc : c ≠ '\n' := fun e => h (e ▸ List.mem_cons_self c t)
    rw [List.cons_append, splitLines_cons_ne _ hc,
      ih (fun hm => h (List.mem_cons_of_mem c hm))]

theorem joinLines_cons_ne {l : List Char} {ls : List (List Char)} (h : ls ≠ []) :
    joinLines (l :: ls) = l ++ '\n' :: joinLines ls := by
  simp [joinLines, h]

theorem splitLines_joinLines {ls : List (List Char)} (hne : ls ≠ [])
    (h : ∀ l ∈ ls, '\n' ∉ l) : splitLines (joinLines ls) = ls := by
  induction ls with
  | nil => exact absurd rfl hne
  | cons l t ih =>
    rcases ht : t with _ | ⟨t0, ts⟩
    · simpa [joinLines] using splitLines_no_nl (h l (by simp))
    · rw [← ht, joinLines_cons_ne (by simp [ht]),
        splitLines_append_nl (h l (by simp)),
        ih (by simp [ht]) (fun x hx => h x (List.mem_cons_of_mem l hx))]

theorem mem_joinLines {c : Char} {ls : List (List Char)}
    (h : c ∈ joinLines ls) : c = '\n' ∨ ∃ l ∈ ls, c ∈ l := by
  induction ls with
  | nil => simp [joinLines] at h
  | cons l t ih =>
    cases t with
    | nil =>
      simp only [joinLines, List.isEmpty_nil, if_true] at h
      exact Or.inr ⟨l, by simp, h⟩
    | cons t0 ts =>
      rw [joinLines_cons_ne (by simp)] at h
      rcases List.mem_append.mp h with h | h
      · exact Or.inr ⟨l, by simp, h⟩
      · rcases List.mem_cons.mp h with rfl | h
        · exact Or.inl rfl
        · rcases ih h with h | ⟨x, hx, hcx⟩
          · exact Or.inl h
          · exact Or.inr ⟨x, List.mem_cons_of_mem l hx, hcx⟩

theorem splitTicks_cons_ne {a : Char} (rest : List Char) (ha : a ≠ backquote) :
    splitTicks (a :: rest) =
      match splitTicks rest with
      | h :: r => (a :: h) :: r
      | [] => [[a]] := by
  match rest with
  | [] => simp [splitTicks]
  | [b] => simp [splitTicks]
  | b :: c :: t => simp [splitTicks, ha]

theorem splitTicks_no_tick {cs : List Char} (h : backquote ∉ cs) :
    splitTicks cs = [cs] := by
  induction cs with
  | nil => rfl
  | cons a t ih =>
    have ha : a ≠ backquote := fun e => h (e ▸ List.mem_cons_self a t)
    rw [splitTicks_cons_ne t ha, ih (fun hm => h (List.mem_cons_of_mem a hm))]

theorem splitTicks_fence_cons (t : List Char) :
    splitTicks (fence3 ++ t) = [] :: splitTicks t := by
  simp [fence3, splitTicks]

theorem splitTicks_append_fence {mid t : List Char} (h : backquote ∉ mid) :
    splitTicks (mid ++ fence3 ++ t) = mid :: splitTicks t := by
  induction mid with
  | nil => simpa using splitTicks_fence_cons t
  | cons a m ih =>
    have ha : a ≠ backquote := fun e => h (e ▸ List.mem_cons_self a m)
    rw [List.cons_append, List.cons_append, splitTicks_cons_ne _ ha]
    have := ih (fun hm => h (List.mem_cons_of_mem a hm))
    rw [List.append_assoc] at this ⊢
    rw [this]

/-! ## Pattern-matcher lemmas -/

theorem takeWhile_append_all {q : Char → Bool} {p : List Char} {x : Char}
    (xs : List Char) (hall : ∀ c ∈ p, q c = true) (hx : q x = false) :
    (p ++ x :: xs).takeWhile q = p := by
  induction p with
  | nil => simp [List.takeWhile_cons, hx]
  | cons a t ih =>
    simp [List.takeWhile_cons, hall a (by simp),
      ih (fun c hc => hall c (by simp [hc]))]

theorem dropWhile_append_all {q : Char → Bool} {p : List Char} {x : Char}
    (xs : List Char) (hall : ∀ c ∈ p, q c = true) (hx : q x = false) :
    (p ++ x :: xs).dropWhile q = x :: xs := by
  induction p with
  | nil => simp [List.dropWhile_cons, hx]
  | cons a t ih =>
    simp [List.dropWhile_cons, hall a (by simp),
      ih (fun c hc => hall c (by simp [hc]))]

theorem findBoldPath_cons_of_ne {a : Char} (rest : List Char) (ha : a ≠ '*') :
    findBoldPath (a :: rest) = findBoldPath rest := by
  cases rest with
  | nil => simp [findBoldPath]
  | cons b t => simp [findBoldPath, ha]

theorem findBoldPath_none_of_no_star {cs : List Char} (h : '*' ∉ cs) :
    findBoldPath cs = none := by
  induction cs with
  | nil => rfl
  | cons a t ih =>
    rw [findBoldPath_cons_of_ne t (fun e => h (e ▸ List.mem_cons_self a t))]
    exact ih (fun hm => h (List.mem_cons_of_mem a hm))

theorem findBoldPath_bold {p pre post : List Char} (hp : isFileToken p = true)
    (hpre : '*' ∉ pre) :
    findBoldPath (pre ++ '*' :: '*' :: (p ++ '*' :: '*' :: post)) = some p := by
  induction pre with
  | nil =>
    have hrun : (p ++ '*' :: '*' :: post).takeWhile isPathChar = p :=
      takeWhile_append_all _ (isFileToken_all_path hp) (by decide)
    have hdrop : (p ++ '*' :: '*' :: post).dropWhile isPathChar = '*' :: '*' :: post :=
      dropWhile_append_all _ (isFileToken_all_path hp) (by decide)
    simp [findBoldPath, hrun, hdrop, hp, List.isPrefixOf]
  | cons a t ih =>
    rw [List.cons_append,
      findBoldPath_cons_of_ne _ (fun e => hpre (e ▸ List.mem_cons_self a t))]
    exact ih (fun hm => hpre (List.mem_cons_of_mem a hm))

theorem findBoldPath_some {cs p : List Char} (h : findBoldPath cs = some p) :
    isFileToken p = true := by
  induction cs using findBoldPath.induct with
  | case1 c1 c2 rest hb run hm =>
    simp only [findBoldPath, if_pos hb, if_pos hm, Option.some.injEq] at h
    exact h ▸ hm.1
  | case2 c1 c2 rest hb run hm ih =>
    rw [findBoldPath, if_pos hb, if_neg hm] at h
    exact ih h
  | case3 c1 c2 rest hb ih =>
    rw [findBoldPath, if_neg hb] at h
    exact ih h
  | case4 cs hshape =>
    cases cs with
    | nil => simp [findBoldPath] at h
    | cons a t =>
      cases t with
      | nil => simp [findBoldPath] at h
      | cons b r => exact absurd rfl (hshape a b r)

theorem colonPathMatch_some {line p : List Char}
    (h : colonPathMatch line = some p) : isFileToken p = true := by
  unfold colonPathMatch at h
  split at h
  · split at h
    · split at h
      · cases h
        assumption
      · exact absurd h (by simp)
    · exact absurd h (by simp)
  · exact absurd h (by simp)

theorem headingPathMatch_some {line p : List Char}
    (h : headingPathMatch line = some p) : isFileToken p = true := by
  rcases line with _ | ⟨c, rest⟩
  · simp [headingPathMatch] at h
  · simp only [headingPathMatch] at h
    by_cases hc : c = '#'
    · rw [if_pos hc] at h
      by_cases hws : (rest.takeWhile isSpaceChar).isEmpty = true
      · rw [if_pos hws] at h
        exact absurd h (by simp)
      · rw [if_neg hws] at h
        by_cases ht : isFileToken (rest.dropWhile isSpaceChar) = true
        · rw [if_pos ht] at h
          cases h
          exact ht
        · rw [if_neg ht] at h
          exact absurd h (by simp)
    · rw [if_neg hc] at h
      exact absurd h (by simp)

theorem numberedFileMatch_some {line p : List Char}
    (h : numberedFileMatch line = some p) : isFileToken p = true := by
  simp only [numberedFileMatch] at h
  by_cases hds : (line.takeWhile Char.isDigit).isEmpty = true
  · rw [if_pos hds] at h
    exact absurd h (by simp)
  · rw [if_neg hds] at h
    rcases hd : line.dropWhile Char.isDigit with _ | ⟨c, rest⟩ <;> rw [hd] at h
    · exact absurd h (by simp)
    · dsimp only at h
      by_cases hc : c = '.'
      · rw [if_pos hc] at h
        by_cases hws : (rest.takeWhile isSpaceChar).isEmpty = true
        · rw [if_pos hws] at h
          exact absurd h (by simp)
        · rw [if_neg hws] at h
          by_cases ht : isFileToken (rstripSpaces (rest.dropWhile isSpaceChar)) = true
          · rw [if_pos ht] at h
            cases h
            exact ht
          · rw [if_neg ht] at h
            exact absurd h (by simp)
      · rw [if_neg hc] at h
        exact absurd h (by simp)

theorem commentFileMatch_cons_of_ne {a : Char} (rest : List Char) (ha : a ≠ '/') :
    commentFileMatch (a :: rest) = commentFileMatch rest := by
  cases rest with
  | nil => simp [commentFileMatch]
  | cons b t => simp [commentFileMatch, ha]

theorem commentFileMatch_none_of_no_slash {cs : List Char} (h : '/' ∉ cs) :
    commentFileMatch cs = none := by
  induction cs with
  | nil => rfl
  | cons a t ih =>
    rw [commentFileMatch_cons_of_ne t (fun e => h (e ▸ List.mem_cons_self a t))]
    exact ih (fun hm => h (List.mem_cons_of_mem a hm))

theorem commentFileMatch_some {cs p : List Char}
    (h : commentFileMatch cs = some p) : isFileToken p = true := by
  induction cs using commentFileMatch.induct with
  | case1 c1 c2 rest hs r1 hf tok htok =>
    rw [commentFileMatch, if_pos hs] at h
    simp only [hf, if_true] at h
    rw [if_pos htok] at h
    cases h
    exact htok
  | case2 c1 c2 rest hs r1 hf tok htok ih =>
    rw [commentFileMatch, if_pos hs] at h
    simp only [hf, if_true] at h
    rw [if_neg htok] at h
    exact ih h
  | case3 c1 c2 rest hs r1 hf ih =>
    rw [commentFileMatch, if_pos hs] at h
    simp only [hf, Bool.false_eq_true, if_false] at h
    exact ih h
  | case4 c1 c2 rest hs ih =>
    rw [commentFileMatch, if_neg hs] at h
    exact ih h
  | case5 cs hshape =>
    cases cs with
    | nil => simp [commentFileMatch] at h
    | cons a t =>
      cases t with
      | nil => simp [commentFileMatch] at h
      | cons b r => exact absurd rfl (hshape a b r)

theorem bareTokenMatch_some {line p : List Char}
    (h : bareTokenMatch line = some p) : isFileToken p = true := by
  simp only [bareTokenMatch] at h
  by_cases ht : isFileToken (rstripSpaces line) = true
  · rw [if_pos ht] at h
    cases h
    exact ht
  · rw [if_neg ht] at h
    exact absurd h (by simp)

theorem codeBlockWithPathMatch_some {line p : List Char}
    (h : codeBlockWithPathMatch line = some p) : isFileToken p = true := by
  simp only [codeBlockWithPathMatch] at h
  by_cases hf : fence3.isPrefixOf line = true
  · rw [if_pos hf] at h
    rcases hd : (line.drop 3).dropWhile isWordChar with _ | ⟨c, tok⟩ <;> rw [hd] at h
    · exact absurd h (by simp)
    · dsimp only at h
      by_cases hc : c = ':'
      · rw [if_pos hc] at h
        by_cases ht : isFileToken tok = true
        · rw [if_pos ht] at h
          cases h
          exact ht
        · rw [if_neg ht] at h
          exact absurd h (by simp)
      · rw [if_neg hc] at h
        exact absurd h (by simp)
  · rw [if_neg hf] at h
    exact absurd h (by simp)

/-! ## Pattern-free lines and the path-extraction step -/

/-- None of the five path-announcement patterns matches the given (already
stripped) line; `bareTokenMatch line = none` disables pattern 4 whatever the
following line is. -/
def NoPatternLine (line : List Char) : Prop :=
  file_header_groups line = none ∧ numberedFileMatch line = none ∧
    commentFileMatch line = none ∧ bareTokenMatch line = none ∧
    codeBlockWithPathMatch line = none

instance (line : List Char) : Decidable (NoPatternLine line) :=
  inferInstanceAs (Decidable (_ ∧ _))

theorem file_header_groups_bold {line p : List Char}
    (h : findBoldPath line = some p) :
    file_header_groups line = some (some p, none, none) := by
  simp [file_header_groups, h]

theorem file_header_groups_some_first {line : List Char}
    {gs : Option (List Char) × Option (List Char) × Option (List Char)}
    (h : file_header_groups line = some gs) :
    ∃ p, firstSomeGroup gs = some p ∧ isFileToken p = true := by
  unfold file_header_groups at h
  rcases hb : findBoldPath line with _ | p <;> rw [hb] at h
  · rcases hc : colonPathMatch line with _ | p <;> rw [hc] at h
    · rcases hh : headingPathMatch line with _ | p <;> rw [hh] at h
      · exact absurd h (by simp)
      · cases h
        exact ⟨p, rfl, headingPathMatch_some hh⟩
    · cases h
      exact ⟨p, rfl, colonPathMatch_some hc⟩
  · cases h
    exact ⟨p, rfl, findBoldPath_some hb⟩

theorem extractPath14_none {line : List Char} (h : NoPatternLine line)
    (next? : Option (List Char)) : extractPath14 line next? = none := by
  obtain ⟨h1, h2, h3, h4, h5⟩ := h
  rcases next? with _ | nl <;>
    simp [extractPath14, h1, h2, h3, h4]

theorem extractPath14_of_bold {line p : List Char}
    (h : findBoldPath line = some p) (next? : Option (List Char)) :
    extractPath14 line next? = some (Except.ok p) := by
  have hg := file_header_groups_bold h
  simp [extractPath14, hg, firstSomeGroup]

theorem extractPath14_cases {line : List Char} {next? : Option (List Char)}
    {r : Except String (List Char)} (h : extractPath14 line next? = some r) :
    ∃ p, r = Except.ok p ∧ isFileToken p = true := by
  simp only [extractPath14] at h
  rcases hf : file_header_groups line with _ | gs <;> rw [hf] at h
  · rcases hn : numberedFileMatch line with _ | p <;> rw [hn] at h
    · rcases hc : commentFileMatch line with _ | p <;> rw [hc] at h
      · rcases next? with _ | nl
        · simp at h
        · dsimp only at h
          by_cases hfen : fence3.isPrefixOf (pyStrip nl) = true
          · rw [if_pos hfen] at h
            rcases hb : bareTokenMatch line with _ | p <;> rw [hb] at h
            · simp at h
            · simp only [Option.isSome_none, Option.isSome_some, Bool.or_false,
                Bool.false_or, if_true, Option.some.injEq] at h
              exact ⟨p, h.symm, bareTokenMatch_some hb⟩
          · rw [if_neg hfen] at h
            simp at h
      · simp only [Option.isSome_none, Option.isSome_some, Bool.or_false,
          Bool.false_or, Bool.true_or, if_true, Option.some.injEq] at h
        exact ⟨p, h.symm, commentFileMatch_some hc⟩
    · simp only [Option.isSome_none, Option.isSome_some, Bool.or_false,
        Bool.false_or, Bool.true_or, if_true, Option.some.injEq] at h
      exact ⟨p, h.symm, numberedFileMatch_some hn⟩
  · simp only [Option.isSome_some, Bool.true_or, if_true, Option.some.injEq] at h
    obtain ⟨p, hp, htok⟩ := file_header_groups_some_first hf
    rw [hp] at h
    exact ⟨p, h.symm, htok⟩

/-! ## Scanning-loop lemmas -/

theorem scanLines_nil : scanLines [] = Except.ok [] := by
  rw [scanLines]

theorem scanLines_cons_skip {l : List Char} {rest : List (List Char)}
    (h : extractPath14 (pyStrip l) rest.head? = none)
    (h5 : codeBlockWithPathMatch (pyStrip l) = none) :
    scanLines (l :: rest) = scanLines rest := by
  rw [scanLines]
  simp only [h, h5]

theorem scanLines_cons_emit {l : List Char} {rest afterOpen : List (List Char)}
    {path : List Char}
    (hp : extractPath14 (pyStrip l) rest.head? = some (Except.ok path))
    (hf : findOpeningFence rest = some afterOpen) :
    scanLines (l :: rest) =
      match scanLines (collectUntilClose afterOpen).2 with
      | Except.ok fs =>
        Except.ok
          (⟨path, joinLines (collectUntilClose afterOpen).1⟩ :: fs)
      | Except.error e => Except.error e := by
  rw [scanLines]
  simp only [hp]
  split
  · rename_i a2 hf2
    have h2 : some a2 = some afterOpen := hf2.symm.trans hf
    cases h2
    rfl
  · rename_i hf2
    rw [hf] at hf2
    exact Option.noConfusion hf2

theorem scanLines_cons_abandon {l : List Char} {rest : List (List Char)}
    {path : List Char}
    (hp : extractPath14 (pyStrip l) rest.head? = some (Except.ok path))
    (hf : findOpeningFence rest = none)
    (h5 : codeBlockWithPathMatch (pyStrip l) = none) :
    scanLines (l :: rest) = scanLines rest := by
  rw [scanLines]
  simp only [hp]
  split
  · rename_i a2 hf2
    rw [hf] at hf2
    exact Option.noConfusion hf2
  · simp only [h5]

theorem scanLines_cons_p5_abandon {l : List Char} {rest : List (List Char)}
    {path p5 : List Char}
    (hp : extractPath14 (pyStrip l) rest.head? = some (Except.ok path))
    (hf : findOpeningFence rest = none)
    (h5 : codeBlockWithPathMatch (pyStrip l) = some p5) :
    scanLines (l :: rest) =
      match scanLines (collectUntilClose rest).2 with
      | Except.ok fs =>
        Except.ok (⟨p5, joinLines (collectUntilClose rest).1⟩ :: fs)
      | Except.error e => Except.error e := by
  rw [scanLines]
  simp only [hp]
  split
  · rename_i a2 hf2
    rw [hf] at hf2
    exact Option.noConfusion hf2
  · simp only [h5]

theorem scanLines_cons_p5 {l : List Char} {rest : List (List Char)} {p5 : List Char}
    (hn : extractPath14 (pyStrip l) rest.head? = none)
    (h5 : codeBlockWithPathMatch (pyStrip l) = some p5) :
    scanLines (l :: rest) =
      match scanLines (collectUntilClose rest).2 with
      | Except.ok fs =>
        Except.ok (⟨p5, joinLines (collectUntilClose rest).1⟩ :: fs)
      | Except.error e => Except.error e := by
  rw [scanLines]
  simp only [hn, h5]

/-- The scanning loop never raises: for every list of lines it produces a
list of files. -/
theorem scanLines_ok (ls : List (List Char)) :
    ∃ fs, scanLines ls = Except.ok fs := by
  induction ls using scanLines.induct with
  | case1 => exact ⟨[], scanLines_nil⟩
  | case2 l ls line e herr =>
    obtain ⟨p, hp, -⟩ := extractPath14_cases herr
    exact absurd hp (by simp)
  | case3 l ls line path hp afterOpen hf fs hscan ih =>
    exact ⟨_, by rw [scanLines_cons_emit hp hf, hscan]⟩
  | case4 l ls line path hp afterOpen hf e hscan ih =>
    obtain ⟨fs, hfs⟩ := ih
    rw [hscan] at hfs
    exact absurd hfs (by simp)
  | case5 l ls line path hp hfn p hcb fs hscan ih =>
    exact ⟨_, by rw [scanLines_cons_p5_abandon hp hfn hcb, hscan]⟩
  | case6 l ls line path hp hfn p hcb e hscan ih =>
    obtain ⟨fs, hfs⟩ := ih
    rw [hscan] at hfs
    exact absurd hfs (by simp)
  | case7 l ls line path hp hfn hcbn ih =>
    obtain ⟨fs, hfs⟩ := ih
    exact ⟨fs, by rw [scanLines_cons_abandon hp hfn hcbn]; exact hfs⟩
  | case8 l ls line hn p hcb fs hscan ih =>
    exact ⟨_, by rw [scanLines_cons_p5 hn hcb, hscan]⟩
  | case9 l ls line hn p hcb e hscan ih =>
    obtain ⟨fs, hfs⟩ := ih
    rw [hscan] at hfs
    exact absurd hfs (by simp)
  | case10 l ls line hn hcbn ih =>
    obtain ⟨fs, hfs⟩ := ih
    exact ⟨fs, by rw [scanLines_cons_skip hn hcbn]; exact hfs⟩

/-- Every file emitted by the scanning loop carries a path captured by one
of the five patterns, hence a well-formed file token. -/
theorem scanLines_paths :
    ∀ ls fs, scanLines ls = Except.ok fs →
      ∀ f ∈ fs, isFileToken f.path = true := by
  intro ls
  induction ls using scanLines.induct with
  | case1 =>
    intro fs h
    rw [scanLines_nil] at h
    cases h
    simp
  | case2 l ls line e herr =>
    obtain ⟨p, hp, -⟩ := extractPath14_cases herr
    exact absurd hp (by simp)
  | case3 l ls line path hp afterOpen hf fs hscan ih =>
    intro fs2 h f hf2
    rw [scanLines_cons_emit hp hf, hscan] at h
    cases h
    rcases List.mem_cons.mp hf2 with rfl | hmem
    · obtain ⟨p, hpeq, htok⟩ := extractPath14_cases hp
      cases hpeq
      exact htok
    · exact ih fs hscan f hmem
  | case4 l ls line path hp afterOpen hf e hscan ih =>
    intro fs2 h
    rw [scanLines_cons_emit hp hf, hscan] at h
    exact absurd h (by simp)
  | case5 l ls line path hp hfn p hcb fs hscan ih =>
    intro fs2 h f hf2
    rw [scanLines_cons_p5_abandon hp hfn hcb, hscan] at h
    cases h
    rcases List.mem_cons.mp hf2 with rfl | hmem
    · exact codeBlockWithPathMatch_some hcb
    · exact ih fs hscan f hmem
  | case6 l ls line path hp hfn p hcb e hscan ih =>
    intro fs2 h
    rw [scanLines_cons_p5_abandon hp hfn hcb, hscan] at h
    exact absurd h (by simp)
  | case7 l ls line path hp hfn hcbn ih =>
    intro fs2 h
    rw [scanLines_cons_abandon hp hfn hcbn] at h
    exact ih fs2 h
  | case8 l ls line hn p hcb fs hscan ih =>
    intro fs2 h f hf2
    rw [scanLines_cons_p5 hn hcb, hscan] at h
    cases h
    rcases List.mem_cons.mp hf2 with rfl | hmem
    · exact codeBlockWithPathMatch_some hcb
    · exact ih fs hscan f hmem
  | case9 l ls line hn p hcb e hscan ih =>
    intro fs2 h
    rw [scanLines_cons_p5 hn hcb, hscan] at h
    exact absurd h (by simp)
  | case10 l ls line hn hcbn ih =>
    intro fs2 h
    rw [scanLines_cons_skip hn hcbn] at h
    exact ih fs2 h

/-! ## Top-level extractor lemmas -/

/-- The guard of the default-file branch (source line 339) is never
satisfied: when `files` is empty, Python's `all(f['path'] for f in files)`
is vacuously `True`, so `not all(...)` is `False`; when `files` is
nonempty, `len(files) == 0` fails.  The branch is dead code. -/
theorem default_branch_cond_false (files1 : List ExtractedFile) (code : List Char) :
    ¬(files1.length = 0 ∧ 100 < code.length ∧ ¬(∀ f ∈ files1, f.path ≠ [])) := by
  rintro ⟨h0, -, hall⟩
  apply hall
  intro f hf
  rw [List.length_eq_zero] at h0
  subst h0
  simp at hf

/-- Characterization of `extract_file_references` once the scan result is
known: only the single-fenced-block fallback can add a file. -/
theorem extract_file_references_eq {code : List Char} {files0 : List ExtractedFile}
    (h : scanLines (splitLines code) = Except.ok files0) :
    extract_file_references code =
      Except.ok
        (if files0.length = 0 ∧ 2 ≤ (splitTicks code).length then
          match splitTicks code with
          | _ :: cc :: _ :: _ => files0 ++ [⟨"app.js".toList, dropFirstLine cc⟩]
          | _ => files0
        else files0) := by
  unfold extract_file_references
  rw [h]
  dsimp only
  rw [if_neg (default_branch_cond_false _ _)]

theorem extract_paths_core {code : List Char} {fs : List ExtractedFile}
    (h : extract_file_references code = Except.ok fs) :
    ∀ f ∈ fs, isFileToken f.path = true ∨ f.path = "app.js".toList := by
  obtain ⟨files0, h0⟩ := scanLines_ok (splitLines code)
  rw [extract_file_references_eq h0] at h
  cases h
  intro f hf
  by_cases hc : files0.length = 0 ∧ 2 ≤ (splitTicks code).length
  · rw [if_pos hc] at hf
    rcases hsp : splitTicks code with _ | ⟨a, _ | ⟨b, _ | ⟨c, r⟩⟩⟩ <;> rw [hsp] at hf
    · exact Or.inl (scanLines_paths _ _ h0 f hf)
    · exact Or.inl (scanLines_paths _ _ h0 f hf)
    · exact Or.inl (scanLines_paths _ _ h0 f hf)
    · rcases List.mem_append.mp hf with hm | hm
      · exact Or.inl (scanLines_paths _ _ h0 f hm)
      · rcases List.mem_singleton.mp hm with rfl
        exact Or.inr rfl
  · rw [if_neg hc] at hf
    exact Or.inl (scanLines_paths _ _ h0 f hf)

/-! ## Fence-lookahead lemmas -/

theorem isPrefixOf_self_append (l t : List Char) : l.isPrefixOf (l ++ t) = true := by
  induction l with
  | nil => simp [List.isPrefixOf]
  | cons a as ih => simp [List.isPrefixOf, ih]

theorem findOpeningFence_cons_fence {l : List Char} {ls : List (List Char)}
    (h : fence3.isPrefixOf (pyStrip l) = true) :
    findOpeningFence (l :: ls) = some ls := by
  simp [findOpeningFence, h]

theorem findOpeningFence_skip {mids ls : List (List Char)}
    (h : ∀ m ∈ mids, fence3.isPrefixOf (pyStrip m) = false) :
    findOpeningFence (mids ++ ls) = findOpeningFence ls := by
  induction mids with
  | nil => rfl
  | cons m t ih =>
    simp only [List.cons_append, findOpeningFence, h m (by simp)]
    simpa using ih (fun x hx => h x (by simp [hx]))

theorem pyStrip_fence3 : pyStrip fence3 = fence3 := by decide

theorem collectUntilClose_append {content rest : List (List Char)}
    (h : ∀ c ∈ content, pyStrip c ≠ fence3) :
    collectUntilClose (content ++ fence3 :: rest) = (content, rest) := by
  induction content with
  | nil => simp [collectUntilClose, pyStrip_fence3]
  | cons c t ih =>
    have hih := ih (fun x hx => h x (by simp [hx]))
    simp only [List.cons_append, collectUntilClose, h c (by simp), if_false,
      List.append_eq, hih]

/-! ## Well-formed announcement documents -/

/-- One well-formed `**path**` announcement: the bold path line, a fence
opener with a bare language tag, the content lines, and a closing fence. -/
structure FileBlock where
  path : List Char
  lang : List Char
  content : List (List Char)

/-- The announcement line `**path**`. -/
def announcementLine (b : FileBlock) : List Char :=
  '*' :: '*' :: (b.path ++ ['*', '*'])

/-- The opening fence line, three backticks plus the language tag. -/
def openFenceLine (b : FileBlock) : List Char :=
  fence3 ++ b.lang

/-- The lines of one announcement block. -/
def blockLines (b : FileBlock) : List (List Char) :=
  announcementLine b :: openFenceLine b :: (b.content ++ [fence3])

/-- Well-formedness of one block: a real path token, a word-character
language tag, and content lines that contain no newline and do not strip to
a closing fence. -/
def BlockOK (b : FileBlock) : Prop :=
  isFileToken b.path = true ∧ (∀ c ∈ b.lang, isWordChar c = true) ∧
    ∀ c ∈ b.content, '\n' ∉ c ∧ pyStrip c ≠ fence3

/-- Inert prose: a single line with no newline, no backtick, matching none
of the five patterns once stripped. -/
def ProseLine (l : List Char) : Prop :=
  '\n' ∉ l ∧ backquote ∉ l ∧ NoPatternLine (pyStrip l)

/-- A document: leading prose, then alternating announcement blocks each
followed by its trailing prose. -/
def docLines : List (List Char) → List (FileBlock × List (List Char)) → List (List Char)
  | p0, [] => p0
  | p0, (b, p) :: rest => p0 ++ (blockLines b ++ docLines p rest)

theorem scanLines_skip_prose {p0 ls : List (List Char)}
    (h : ∀ l ∈ p0, ProseLine l) :
    scanLines (p0 ++ ls) = scanLines ls := by
  induction p0 with
  | nil => rfl
  | cons l t ih =>
    obtain ⟨-, -, hnp⟩ := h l (by simp)
    rw [List.cons_append,
      scanLines_cons_skip (extractPath14_none hnp _) hnp.2.2.2.2]
    exact ih (fun x hx => h x (by simp [hx]))

theorem announcementLine_strip (b : FileBlock) (hb : isFileToken b.path = true) :
    pyStrip (announcementLine b) = announcementLine b := by
  apply pyStrip_eq_self
  intro c hc
  have hcc : c = '*' ∨ c ∈ b.path := by
    simp only [announcementLine, List.mem_cons, List.mem_append,
      List.mem_singleton, List.not_mem_nil, or_false] at hc
    tauto
  rcases hcc with rfl | hcc
  · decide
  · exact path_not_space (isFileToken_all_path hb c hcc)

theorem openFenceLine_strip (b : FileBlock)
    (hl : ∀ c ∈ b.lang, isWordChar c = true) :
    pyStrip (openFenceLine b) = openFenceLine b := by
  apply pyStrip_eq_self
  intro c hc
  have hcc : c = backquote ∨ c ∈ b.lang := by
    simp only [openFenceLine, fence3, List.mem_append, List.mem_cons,
      List.not_mem_nil, or_false] at hc
    tauto
  rcases hcc with rfl | hcc
  · decide
  · exact word_not_space (hl c hcc)

theorem scanLines_block {b : FileBlock} {ls : List (List Char)} (hb : BlockOK b) :
    scanLines (blockLines b ++ ls) =
      match scanLines ls with
      | Except.ok fs => Except.ok (⟨b.path, joinLines b.content⟩ :: fs)
      | Except.error e => Except.error e := by
  obtain ⟨hpath, hlang, hcontent⟩ := hb
  have hshape : blockLines b ++ ls =
      announcementLine b :: openFenceLine b :: (b.content ++ fence3 :: ls) := by
    simp [blockLines]
  rw [hshape]
  have hbold : findBoldPath (pyStrip (announcementLine b)) = some b.path := by
    rw [announcementLine_strip b hpath]
    exact findBoldPath_bold hpath (List.not_mem_nil '*')
  have hopen : fence3.isPrefixOf (pyStrip (openFenceLine b)) = true := by
    rw [openFenceLine_strip b hlang]
    exact isPrefixOf_self_append _ _
  rw [scanLines_cons_emit (extractPath14_of_bold hbold _)
    (findOpeningFence_cons_fence hopen),
    collectUntilClose_append (fun c hc => (hcontent c hc).2)]

theorem scanLines_doc :
    ∀ (segs : List (FileBlock × List (List Char))) (p0 : List (List Char)),
      (∀ l ∈ p0, ProseLine l) →
      (∀ s ∈ segs, BlockOK s.1 ∧ ∀ l ∈ s.2, ProseLine l) →
      scanLines (docLines p0 segs) =
        Except.ok (segs.map fun s => ⟨s.1.path, joinLines s.1.content⟩) := by
  intro segs
  induction segs with
  | nil =>
    intro p0 hp0 _
    have h1 := @scanLines_skip_prose p0 [] hp0
    rw [List.append_nil] at h1
    rw [docLines, h1, scanLines_nil]
    rfl
  | cons s rest ih =>
    intro p0 hp0 hsegs
    obtain ⟨b, p⟩ := s
    rw [docLines, scanLines_skip_prose hp0,
      scanLines_block (hsegs (b, p) (by simp)).1,
      ih p (hsegs (b, p) (by simp)).2 (fun x hx => hsegs x (by simp [hx]))]
    rfl

theorem blockLines_no_nl {b : FileBlock} (hb : BlockOK b) :
    ∀ l ∈ blockLines b, '\n' ∉ l := by
  obtain ⟨hpath, hlang, hcontent⟩ := hb
  intro l hl
  simp only [blockLines, List.mem_cons, List.mem_append,
    List.mem_singleton] at hl
  rcases hl with rfl | rfl | hl | rfl | h0
  · intro hmem
    have : ('\n' : Char) = '*' ∨ '\n' ∈ b.path := by
      simp only [announcementLine, List.mem_cons, List.mem_append,
        List.mem_singleton, List.not_mem_nil, or_false] at hmem
      tauto
    rcases this with h | h
    · exact absurd h (by decide)
    · exact absurd (isFileToken_all_path hpath '\n' h) (by decide)
  · intro hmem
    have : ('\n' : Char) = backquote ∨ '\n' ∈ b.lang := by
      simp only [openFenceLine, fence3, List.mem_append, List.mem_cons,
        List.not_mem_nil, or_false] at hmem
      tauto
    rcases this with h | h
    · exact absurd h (by decide)
    · exact absurd (hlang '\n' h) (by decide)
  · exact (hcontent l hl).1
  · decide
  · exact absurd h0 (List.not_mem_nil l)

theorem docLines_no_nl :
    ∀ (segs : List (FileBlock × List (List Char))) (p0 : List (List Char)),
      (∀ l ∈ p0, ProseLine l) →
      (∀ s ∈ segs, BlockOK s.1 ∧ ∀ l ∈ s.2, ProseLine l) →
      ∀ l ∈ docLines p0 segs, '\n' ∉ l := by
  intro segs
  induction segs with
  | nil =>
    intro p0 hp0 _ l hl
    exact (hp0 l hl).1
  | cons s rest ih =>
    intro p0 hp0 hsegs l hl
    obtain ⟨b, p⟩ := s
    simp only [docLines, List.mem_append] at hl
    rcases hl with hl | hl | hl
    · exact (hp0 l hl).1
    · exact blockLines_no_nl (hsegs (b, p) (by simp)).1 l hl
    · exact ih p (hsegs (b, p) (by simp)).2
        (fun x hx => hsegs x (by simp [hx])) l hl

theorem no_backquote_joinLines {p0 : List (List Char)}
    (h : ∀ l ∈ p0, ProseLine l) : backquote ∉ joinLines p0 := by
  intro hmem
  rcases mem_joinLines hmem with he | ⟨l, hl, hcl⟩
  · exact absurd he (by decide)
  · exact (h l hl).2.1 hcl

/-- The extractor on a concrete empty input. -/
theorem extract_file_references_empty :
    extract_file_references ([] : List Char) = Except.ok [] := by
  have hscan : scanLines (splitLines ([] : List Char)) = Except.ok [] := by
    show scanLines [[]] = Except.ok []
    rw [scanLines_cons_skip (by decide) (by decide), scanLines_nil]
  rw [extract_file_references_eq hscan]
  rw [if_neg]
  rintro ⟨-, hlen⟩
  revert hlen
  decide

/-- The extractor, applied to a well-formed document of `N` bold-path
announcements (with inert prose around them), returns exactly the `N`
announced files, in order, with the fenced content captured verbatim. -/
theorem extract_doc (p0 : List (List Char))
    (segs : List (FileBlock × List (List Char)))
    (hp0 : ∀ l ∈ p0, ProseLine l)
    (hsegs : ∀ s ∈ segs, BlockOK s.1 ∧ ∀ l ∈ s.2, ProseLine l) :
    extract_file_references (joinLines (docLines p0 segs)) =
      Except.ok (segs.map fun s => ⟨s.1.path, joinLines s.1.content⟩) := by
  by_cases hnil : docLines p0 segs = []
  · have hs : segs = [] := by
      cases segs with
      | nil => rfl
      | cons s rest =>
        obtain ⟨b, p⟩ := s
        exfalso
        apply List.append_ne_nil_of_right_ne_nil p0 _ hnil
        simp [blockLines]
    subst hs
    have hp : p0 = [] := hnil
    subst hp
    simpa using extract_file_references_empty
  · have hlines : splitLines (joinLines (docLines p0 segs)) = docLines p0 segs :=
      splitLines_joinLines hnil (docLines_no_nl segs p0 hp0 hsegs)
    have hscan : scanLines (splitLines (joinLines (docLines p0 segs))) =
        Except.ok (segs.map fun s => ⟨s.1.path, joinLines s.1.content⟩) := by
      rw [hlines]
      exact scanLines_doc segs p0 hp0 hsegs
    rw [extract_file_references_eq hscan]
    cases hseg : segs with
    | nil =>
      subst hseg
      rw [if_neg]
      rintro ⟨-, hticks⟩
      simp only [docLines] at hticks
      rw [splitTicks_no_tick (no_backquote_joinLines hp0)] at hticks
      simp at hticks
    | cons s srest =>
      subst hseg
      rw [if_neg]
      rintro ⟨hlen, -⟩
      simp at hlen

/-! ## Mid-prose bold announcements (the unanchored pattern 1a) -/

theorem contains_iff_mem_char {l : List Char} {c : Char} :
    l.contains c = true ↔ c ∈ l := List.elem_iff

theorem joinLines_append_single {xs : List (List Char)} (y : List Char)
    (h : xs ≠ []) : joinLines (xs ++ [y]) = joinLines xs ++ '\n' :: y := by
  induction xs with
  | nil => exact absurd rfl h
  | cons x t ih =>
    cases t with
    | nil => simp [joinLines]
    | cons t0 ts =>
      rw [List.cons_append, joinLines_cons_ne (by simp),
        joinLines_cons_ne (by simp), ih (by simp), List.append_assoc]
      simp

/-- Processing one line whose stripped form contains a bold path token
anywhere in it, followed by skippable lookahead lines, a fence, content
and a closer: exactly the announced file is produced with the fenced
content captured verbatim. -/
theorem extract_prose_bold (l0 pre post p lang : List Char)
    (mids content : List (List Char))
    (hstrip : pyStrip l0 = pre ++ '*' :: '*' :: (p ++ '*' :: '*' :: post))
    (hpre : '*' ∉ pre)
    (hp : isFileToken p = true)
    (hnl : '\n' ∉ l0)
    (hlang : ∀ c ∈ lang, isWordChar c = true)
    (hmids : ∀ m ∈ mids, '\n' ∉ m ∧ fence3.isPrefixOf (pyStrip m) = false)
    (hcontent : ∀ c ∈ content, '\n' ∉ c ∧ pyStrip c ≠ fence3) :
    extract_file_references
        (joinLines (l0 :: (mids ++ (fence3 ++ lang) :: (content ++ [fence3])))) =
      Except.ok [⟨p, joinLines content⟩] := by
  have hopenstrip : pyStrip (fence3 ++ lang) = fence3 ++ lang :=
    openFenceLine_strip ⟨p, lang, content⟩ hlang
  have hlines : splitLines
      (joinLines (l0 :: (mids ++ (fence3 ++ lang) :: (content ++ [fence3])))) =
      l0 :: (mids ++ (fence3 ++ lang) :: (content ++ [fence3])) := by
    apply splitLines_joinLines (by simp)
    intro l hl
    simp only [List.mem_cons, List.mem_append, List.mem_singleton] at hl
    rcases hl with rfl | hl | rfl | hl | rfl | h0
    · exact hnl
    · exact (hmids l hl).1
    · intro hmem
      have : ('\n' : Char) = backquote ∨ '\n' ∈ lang := by
        simp only [fence3, List.mem_append, List.mem_cons,
          List.not_mem_nil, or_false] at hmem
        tauto
      rcases this with h | h
      · exact absurd h (by decide)
      · exact absurd (hlang '\n' h) (by decide)
    · exact (hcontent l hl).1
    · decide
    · exact absurd h0 (List.not_mem_nil l)
  have hbold : findBoldPath (pyStrip l0) = some p := by
    rw [hstrip]
    exact findBoldPath_bold hp hpre
  have hfence : findOpeningFence (mids ++ (fence3 ++ lang) :: (content ++ [fence3])) =
      some (content ++ [fence3]) := by
    rw [findOpeningFence_skip (fun m hm => (hmids m hm).2)]
    apply findOpeningFence_cons_fence
    rw [hopenstrip]
    exact isPrefixOf_self_append _ _
  have hscan : scanLines
      (l0 :: (mids ++ (fence3 ++ lang) :: (content ++ [fence3]))) =
      Except.ok [⟨p, joinLines content⟩] := by
    rw [scanLines_cons_emit (extractPath14_of_bold hbold _) hfence]
    have hcoll : collectUntilClose (content ++ [fence3]) = (content, []) :=
      collectUntilClose_append (fun c hc => (hcontent c hc).2)
    rw [hcoll, scanLines_nil]
  rw [extract_file_references_eq (by rw [hlines]; exact hscan)]
  rw [if_neg]
  rintro ⟨hlen, -⟩
  simp at hlen

/-! ## The single-fenced-block fallback (degenerate responses) -/

/-- The opening line of a bare fenced block, three backticks plus a
language tag of word characters, matches none of the five patterns. -/
theorem noPattern_open_line {tag : List Char} (hne : tag ≠ [])
    (htag : ∀ c ∈ tag, isWordChar c = true) :
    NoPatternLine (fence3 ++ tag) := by
  have hbold : findBoldPath (fence3 ++ tag) = none := by
    apply findBoldPath_none_of_no_star
    intro hmem
    rcases List.mem_append.mp hmem with h | h
    · exact absurd h (by decide)
    · exact absurd (htag '*' h) (by decide)
  have hcolon : colonPathMatch (fence3 ++ tag) = none := by
    rcases htr : tag.reverse with _ | ⟨c, rt⟩
    · exact absurd (by simpa using congrArg List.reverse htr) hne
    · have hc : c ∈ tag := List.mem_reverse.mp (htr ▸ List.mem_cons_self c rt)
      have hcne : c ≠ ':' := bool_pred_ne (htag c hc) (by decide)
      simp [colonPathMatch, List.reverse_append, htr, hcne]
  have hheading : headingPathMatch (fence3 ++ tag) = none := by
    simp [fence3, backquote, headingPathMatch]
  have hnumbered : numberedFileMatch (fence3 ++ tag) = none := by
    simp [fence3, backquote, numberedFileMatch, List.takeWhile_cons]
  have hcomment : commentFileMatch (fence3 ++ tag) = none := by
    apply commentFileMatch_none_of_no_slash
    intro hmem
    rcases List.mem_append.mp hmem with h | h
    · exact absurd h (by decide)
    · exact absurd (htag '/' h) (by decide)
  have htok : isFileToken (fence3 ++ tag) = false := by
    have h1 : (fence3 ++ tag).reverse.dropWhile isWordChar =
        backquote :: [backquote, backquote] := by
      rw [List.reverse_append, show fence3.reverse = [backquote, backquote, backquote] from rfl]
      exact dropWhile_append_all _ (fun c hc => htag c (List.mem_reverse.mp hc))
        (by decide)
    simp only [isFileToken, h1]
    simp [backquote]
  have hnospace : ∀ c ∈ fence3 ++ tag, isSpaceChar c = false := by
    intro c hc
    rcases List.mem_append.mp hc with h | h
    · have hcb : c = backquote := by
        simp only [fence3, List.mem_cons, List.not_mem_nil, or_false] at h
        tauto
      rw [hcb]
      decide
    · exact word_not_space (htag c h)
  have hbare : bareTokenMatch (fence3 ++ tag) = none := by
    simp [bareTokenMatch, rstripSpaces_eq_self hnospace, htok]
  have h5 : codeBlockWithPathMatch (fence3 ++ tag) = none := by
    have hdrop : ((fence3 ++ tag).drop 3).dropWhile isWordChar = [] := by
      rw [show (fence3 ++ tag).drop 3 = tag from rfl]
      exact List.dropWhile_eq_nil_iff.mpr htag
    simp only [codeBlockWithPathMatch,
      isPrefixOf_self_append fence3 tag, if_true, hdrop]
  exact ⟨by simp [file_header_groups, hbold, hcolon, hheading],
    hnumbered, hcomment, hbare, h5⟩

/-- A response that is exactly one fenced block with a bare language-tag
first line and inert code lines: the fallback emits one file at the default
path whose content is the raw text between the fences with the tag line
dropped (keeping the newline that precedes the closing fence). -/
theorem extract_single_block (tag : List Char) (body : List (List Char))
    (htag_ne : tag ≠ []) (htag : ∀ c ∈ tag, isWordChar c = true)
    (hbody_ne : body ≠ []) (hbody : ∀ b ∈ body, ProseLine b) :
    extract_file_references (joinLines ((fence3 ++ tag) :: (body ++ [fence3]))) =
      Except.ok [⟨"app.js".toList, joinLines body ++ ['\n']⟩] := by
  have hnospace : ∀ c ∈ fence3 ++ tag, isSpaceChar c = false := by
    intro c hc
    rcases List.mem_append.mp hc with h | h
    · have hcb : c = backquote := by
        simp only [fence3, List.mem_cons, List.not_mem_nil, or_false] at h
        tauto
      rw [hcb]
      decide
    · exact word_not_space (htag c h)
  have hlines : splitLines (joinLines ((fence3 ++ tag) :: (body ++ [fence3]))) =
      (fence3 ++ tag) :: (body ++ [fence3]) := by
    apply splitLines_joinLines (by simp)
    intro l hl
    rcases List.mem_cons.mp hl with rfl | hl
    · intro hmem
      exact absurd (hnospace '\n' hmem) (by decide)
    · rcases List.mem_append.mp hl with hl | hl
      · exact (hbody l hl).1
      · rcases List.mem_singleton.mp hl with rfl
        decide
  have hscan : scanLines ((fence3 ++ tag) :: (body ++ [fence3])) =
      Except.ok [] := by
    have hnp := noPattern_open_line htag_ne htag
    have hstripopen : pyStrip (fence3 ++ tag) = fence3 ++ tag :=
      pyStrip_eq_self hnospace
    rw [scanLines_cons_skip
      (by rw [hstripopen]; exact extractPath14_none hnp _)
      (by rw [hstripopen]; exact hnp.2.2.2.2)]
    have h2 := @scanLines_skip_prose body [fence3] hbody
    rw [h2, scanLines_cons_skip (by decide) (by decide), scanLines_nil]
  have hcode : joinLines ((fence3 ++ tag) :: (body ++ [fence3])) =
      fence3 ++ ((tag ++ '\n' :: (joinLines body ++ ['\n'])) ++ fence3) := by
    rw [joinLines_cons_ne (by simp), joinLines_append_single fence3 hbody_ne]
    simp
  have hmid_no_tick : backquote ∉ tag ++ '\n' :: (joinLines body ++ ['\n']) := by
    intro hmem
    rcases List.mem_append.mp hmem with h | h
    · exact absurd (htag backquote h) (by decide)
    · rcases List.mem_cons.mp h with h | h
      · exact absurd h (by decide)
      · rcases List.mem_append.mp h with h | h
        · rcases mem_joinLines h with h | ⟨l, hl, hcl⟩
          · exact absurd h (by decide)
          · exact (hbody l hl).2.1 hcl
        · rcases List.mem_singleton.mp h with h
          exact absurd h (by decide)
  have hsplit : splitTicks (joinLines ((fence3 ++ tag) :: (body ++ [fence3]))) =
      [[], tag ++ '\n' :: (joinLines body ++ ['\n']), []] := by
    rw [hcode, splitTicks_fence_cons]
    have h3 := @splitTicks_append_fence _ [] hmid_no_tick
    rw [List.append_nil] at h3
    rw [h3]
    rfl
  have hdrop : dropFirstLine (tag ++ '\n' :: (joinLines body ++ ['\n'])) =
      joinLines body ++ ['\n'] := by
    unfold dropFirstLine
    rw [if_pos]
    · have h4 : (tag ++ '\n' :: (joinLines body ++ ['\n'])).dropWhile
          (fun c => c ≠ '\n') = '\n' :: (joinLines body ++ ['\n']) := by
        apply dropWhile_append_all
        · intro c hc
          have : c ≠ '\n' := bool_pred_ne (htag c hc) (by decide)
          simpa using this
        · simp
      rw [h4]
      simp
    · rw [contains_iff_mem_char]
      exact List.mem_append.mpr (Or.inr (List.mem_cons_self _ _))
  rw [extract_file_references_eq (by rw [hlines]; exact hscan)]
  rw [if_pos (by rw [hsplit]; exact ⟨rfl, by simp⟩), hsplit]
  dsimp only
  rw [hdrop]
  rfl

/-! ## Backoff-caller lemmas -/

/-- Running the retry loop when the next `d` attempts fail and the one
after succeeds: one attempt per failure, a sleep of `2 ** retries` after
each failure, then the successful text is returned (flagged truncated
exactly when its length reaches 90% of the 2000-token ceiling). -/
theorem invokeLoop_success (call : Nat → Except String String) (m : Nat) :
    ∀ (d r : Nat) (s : List Nat) (fr : String) (t : String),
      r + d ≤ m →
      (∀ j, r ≤ j → j < r + d → ∃ e, call j = Except.error e) →
      call (r + d) = Except.ok t →
      invokeLoop call m r s fr =
        InvokeTrace.mk (Except.ok (fr ++ t)) (r + d + 1)
          (s ++ (List.range d).map fun i => 2 ^ (r + i + 1))
          (decide (1800 ≤ t.length)) := by
  intro d
  induction d with
  | zero =>
    intro r s fr t hle hfail hok
    rw [Nat.add_zero] at hok hle ⊢
    rw [invokeLoop, if_pos hle, hok]
    dsimp only
    by_cases ht : 1800 ≤ t.length
    · rw [if_pos ht]
      simp [ht]
    · rw [if_neg ht]
      simp [ht]
  | succ d ih =>
    intro r s fr t hle hfail hok
    obtain ⟨e, he⟩ := hfail r (Nat.le_refl r) (by omega)
    rw [invokeLoop, if_pos (by omega), he]
    dsimp only
    rw [if_pos (by omega)]
    rw [ih (r + 1) (s ++ [2 ^ (r + 1)]) fr t (by omega)
      (fun j hj1 hj2 => hfail j (by omega) (by omega))
      (by rw [show r + 1 + d = r + (d + 1) by omega]; exact hok)]
    refine congrArg₂ (fun a b => InvokeTrace.mk (Except.ok (fr ++ t)) a b
      (decide (1800 ≤ t.length))) (by omega) ?_
    rw [List.append_assoc, List.range_succ_eq_map, List.map_cons, List.map_map]
    refine congrArg (fun x => s ++ (2 ^ (r + 1) :: x)) ?_
    apply List.map_congr_left
    intro i hi
    simp only [Function.comp_apply]
    congr 1
    omega

/-- Running the retry loop when every attempt up to and including the
`max_retries`-th retry fails: the final underlying error is re-raised
after `m + 1` attempts, with a sleep after every failure but the last. -/
theorem invokeLoop_exhaust (call : Nat → Except String String) (m : Nat) :
    ∀ (d r : Nat) (s : List Nat) (fr : String) (e : String),
      r + d = m →
      (∀ j, r ≤ j → j < m → ∃ er, call j = Except.error er) →
      call m = Except.error e →
      invokeLoop call m r s fr =
        InvokeTrace.mk (Except.error e) (m + 1)
          (s ++ (List.range d).map fun i => 2 ^ (r + i + 1)) false := by
  intro d
  induction d with
  | zero =>
    intro r s fr e hrm hfail herr
    rw [Nat.add_zero] at hrm
    subst hrm
    rw [invokeLoop, if_pos (Nat.le_refl r), herr]
    dsimp only
    rw [if_neg (by omega)]
    simp
  | succ d ih =>
    intro r s fr e hrm hfail herr
    obtain ⟨er, her⟩ := hfail r (Nat.le_refl r) (by omega)
    rw [invokeLoop, if_pos (by omega), her]
    dsimp only
    rw [if_pos (by omega)]
    rw [ih (r + 1) (s ++ [2 ^ (r + 1)]) fr e (by omega)
      (fun j hj1 hj2 => hfail j (by omega) hj2) herr]
    refine congrArg (fun b => InvokeTrace.mk (Except.error e) (m + 1) b false) ?_
    rw [List.append_assoc, List.range_succ_eq_map, List.map_cons, List.map_map]
    refine congrArg (fun x => s ++ (2 ^ (r + 1) :: x)) ?_
    apply List.map_congr_left
    intro i hi
    simp only [Function.comp_apply]
    congr 1
    omega

instance (b : FileBlock) : Decidable (BlockOK b) :=
  inferInstanceAs (Decidable (_ ∧ _))

instance (l : List Char) : Decidable (ProseLine l) :=
  inferInstanceAs (Decidable (_ ∧ _))

/-! ## Claim theorems -/

/-- Claim C1 (code_bug): the spec says a long plain response with no fence
delimiter and no pattern matches yields one default `app.js` file with the
trimmed text, but the guard of that branch (source line 339) contains
`not all(f['path'] for f in files)`, which is always `False` on the empty
`files` list, so the branch is dead: on 101 `a` characters — longer than
100, no backtick, no pattern — `extract_file_references` returns the empty
sequence, not the default file. -/
theorem C1_default_file_branch_dead :
    100 < (List.replicate 101 'a').length ∧
      splitTicks (List.replicate 101 'a') = [List.replicate 101 'a'] ∧
      extract_file_references (List.replicate 101 'a') = Except.ok [] := by
  have hmem : ∀ c ∈ List.replicate 101 'a', c = 'a' := fun c hc =>
    List.eq_of_mem_replicate hc
  have hnotick : backquote ∉ List.replicate 101 'a' := fun hm =>
    absurd (hmem _ hm) (by decide)
  refine ⟨by simp, splitTicks_no_tick hnotick, ?_⟩
  have hnl : '\n' ∉ List.replicate 101 'a' := fun hm =>
    absurd (hmem _ hm) (by decide)
  have hstrip : pyStrip (List.replicate 101 'a') = List.replicate 101 'a' :=
    pyStrip_eq_self (fun c hc => by rw [hmem c hc]; decide)
  have hnp : NoPatternLine (List.replicate 101 'a') := by decide
  have hscan : scanLines (splitLines (List.replicate 101 'a')) =
      Except.ok [] := by
    rw [splitLines_no_nl hnl,
      scanLines_cons_skip (by rw [hstrip]; exact extractPath14_none hnp _)
        (by rw [hstrip]; exact hnp.2.2.2.2),
      scanLines_nil]
  rw [extract_file_references_eq hscan, if_neg]
  rintro ⟨-, ht⟩
  rw [splitTicks_no_tick hnotick] at ht
  simp at ht

/-- Claim C2: a response made of `N ≥ 0` well-formed bold-path
announcements — each a `**path**` line immediately followed by a fenced
block — separated by inert prose, extracts to exactly `N` entries in source
order, each content byte-identical to the lines strictly between its
fences. -/
theorem C2_bold_announcements_extracted (p0 : List (List Char))
    (segs : List (FileBlock × List (List Char)))
    (hp0 : ∀ l ∈ p0, ProseLine l)
    (hsegs : ∀ s ∈ segs, BlockOK s.1 ∧ ∀ l ∈ s.2, ProseLine l) :
    extract_file_references (joinLines (docLines p0 segs)) =
      Except.ok (segs.map fun s => ⟨s.1.path, joinLines s.1.content⟩) :=
  extract_doc p0 segs hp0 hsegs

theorem C2_witness :
    extract_file_references (joinLines (docLines ["prose text".toList]
        [(⟨"a.js".toList, "js".toList,
            ["x = 1".toList, "".toList, "  y".toList]⟩,
          ["tail prose".toList])])) =
      Except.ok [⟨"a.js".toList,
        joinLines ["x = 1".toList, "".toList, "  y".toList]⟩] :=
  C2_bold_announcements_extracted ["prose text".toList]
    [(⟨"a.js".toList, "js".toList, ["x = 1".toList, "".toList, "  y".toList]⟩,
      ["tail prose".toList])] (by decide) (by decide)

/-- Claim C3: the stage orchestrator makes exactly three calls to the
Backoff Caller, returns the third call's result unconditionally, and the
prompt of call 2 (resp. 3) contains the full response of call 1 (resp. 2)
as a literal substring. -/
theorem C3_staged_three_calls (invoke : String → String → String)
    (system_prompt user_prompt : String) :
    ∃ p1 p2 p3,
      (generate_code_in_stages invoke system_prompt user_prompt).calls =
        [(system_prompt, p1), (system_prompt, p2), (system_prompt, p3)] ∧
      (generate_code_in_stages invoke system_prompt user_prompt).calls.length = 3 ∧
      (generate_code_in_stages invoke system_prompt user_prompt).result =
        invoke system_prompt p3 ∧
      SubstringOf (invoke system_prompt p1) p2 ∧
      SubstringOf (invoke system_prompt p2) p3 := by
  refine ⟨user_prompt ++ stage1Instruction,
    user_prompt ++ stage2Instruction ++
      invoke system_prompt (user_prompt ++ stage1Instruction),
    user_prompt ++ stage3Instruction ++
      invoke system_prompt (user_prompt ++ stage2Instruction ++
        invoke system_prompt (user_prompt ++ stage1Instruction)),
    rfl, rfl, rfl,
    ⟨user_prompt ++ stage2Instruction, "", (String.append_empty _).symm⟩,
    ⟨user_prompt ++ stage3Instruction, "", (String.append_empty _).symm⟩⟩

/-- Claim C4: when every attempt fails and `max_retries = 2`, exactly
three call attempts are made (initial plus two retries) and the final
underlying failure is raised — the call does not return a result. -/
theorem C4_retries_exhausted_raises (call : Nat → Except String String)
    (e0 e1 e2 : String) (h0 : call 0 = Except.error e0)
    (h1 : call 1 = Except.error e1) (h2 : call 2 = Except.error e2) :
    invoke_claude_model call 2 =
      InvokeTrace.mk (Except.error e2) 3 [2, 4] false := by
  have h := invokeLoop_exhaust call 2 2 0 [] "" e2 rfl
    (fun j hj1 hj2 => by
      interval_cases j
      exacts [⟨e0, h0⟩, ⟨e1, h1⟩]) h2
  unfold invoke_claude_model
  rw [h]
  rfl

theorem C4_witness :
    invoke_claude_model (fun _ => Except.error "boom") 2 =
      InvokeTrace.mk (Except.error "boom") 3 [2, 4] false :=
  C4_retries_exhausted_raises (fun _ => Except.error "boom")
    "boom" "boom" "boom" rfl rfl rfl

/-- Claim C5: when the attempt with retry counter `k` succeeds (after `k`
failures) the loop stops retrying at once and returns exactly the
returned text — no error is raised — and the truncation flag (the break
at source line 161) is set precisely when the text length reaches
`2000 * 0.9 = 1800`; below the threshold the text is likewise returned
immediately as a complete result. -/
theorem C5_success_returns_text (call : Nat → Except String String)
    (m k : Nat) (t : String) (hk : k ≤ m)
    (hfail : ∀ j, j < k → ∃ e, call j = Except.error e)
    (hok : call k = Except.ok t) :
    invoke_claude_model call m =
      InvokeTrace.mk (Except.ok t) (k + 1)
        ((List.range k).map fun i => 2 ^ (i + 1))
        (decide (1800 ≤ t.length)) := by
  have h := invokeLoop_success call m k 0 [] "" t (by omega)
    (fun j hj1 hj2 => hfail j (by omega)) (by simpa using hok)
  unfold invoke_claude_model
  rw [h, show ("" : String) ++ t = t from rfl]
  refine congrArg₂ (fun a b => InvokeTrace.mk (Except.ok t) a b
    (decide (1800 ≤ t.length))) (by omega) ?_
  simp

set_option maxRecDepth 8000 in
theorem C5_witness :
    invoke_claude_model
        (fun _ => Except.ok (String.mk (List.replicate 1800 'a'))) 3 =
      InvokeTrace.mk (Except.ok (String.mk (List.replicate 1800 'a'))) 1 []
        true := by
  rw [C5_success_returns_text
    (fun _ => Except.ok (String.mk (List.replicate 1800 'a'))) 3 0
    (String.mk (List.replicate 1800 'a')) (by omega)
    (fun j hj => absurd hj (by omega)) rfl]
  simp [String.length]

/-- Claim C8: with `max_retries = 3` and an underlying call failing twice
then succeeding, the caller sleeps 2 then 4 seconds in that order, makes
the third attempt, and returns the successful text without raising. -/
theorem C8_backoff_two_four (call : Nat → Except String String)
    (e0 e1 : String) (t : String) (h0 : call 0 = Except.error e0)
    (h1 : call 1 = Except.error e1) (h2 : call 2 = Except.ok t) :
    invoke_claude_model call 3 =
      InvokeTrace.mk (Except.ok t) 3 [2, 4] (decide (1800 ≤ t.length)) := by
  have h := invokeLoop_success call 3 2 0 [] "" t (by omega)
    (fun j hj1 hj2 => by
      interval_cases j
      exacts [⟨e0, h0⟩, ⟨e1, h1⟩]) (by simpa using h2)
  unfold invoke_claude_model
  rw [h, show ("" : String) ++ t = t from rfl]
  rfl

theorem C8_witness :
    invoke_claude_model
        (fun j => if j < 2 then Except.error "transient" else Except.ok "done") 3 =
      InvokeTrace.mk (Except.ok "done") 3 [2, 4] false := by
  rw [C8_backoff_two_four
    (fun j => if j < 2 then Except.error "transient" else Except.ok "done")
    "transient" "transient" "done" rfl rfl rfl]
  decide

/-- Claim C6: the extractor is total — for every input it returns some
(possibly empty) list of files and never raises; in particular the
path-extraction step (the `next(...)` of source line 258) never hits its
error branch. -/
theorem C6_extractor_total (code : List Char) :
    (∃ fs, extract_file_references code = Except.ok fs) ∧
      ∀ e, extract_file_references code ≠ Except.error e := by
  obtain ⟨fs, h⟩ := scanLines_ok (splitLines code)
  refine ⟨⟨_, extract_file_references_eq h⟩, ?_⟩
  intro e he
  rw [extract_file_references_eq h] at he
  cases he

theorem C6_witness :
    (∃ fs, extract_file_references ['a'] = Except.ok fs) ∧
      ∀ e, extract_file_references ['a'] ≠ Except.error e :=
  C6_extractor_total ['a']

/-- Claim C7: a response that is exactly one fenced block whose first line
is a bare language tag, matching none of the five patterns, yields one
entry at the default path `app.js` whose content is the text inside the
fences with the tag line excluded. -/
theorem C7_single_fenced_block_default (tag : List Char)
    (body : List (List Char)) (htag_ne : tag ≠ [])
    (htag : ∀ c ∈ tag, isWordChar c = true) (hbody_ne : body ≠ [])
    (hbody : ∀ b ∈ body, ProseLine b) :
    extract_file_references (joinLines ((fence3 ++ tag) :: (body ++ [fence3]))) =
      Except.ok [⟨"app.js".toList, joinLines body ++ ['\n']⟩] :=
  extract_single_block tag body htag_ne htag hbody_ne hbody

theorem C7_witness :
    extract_file_references
        (joinLines ((fence3 ++ "js".toList) ::
          (["let x = 1".toList] ++ [fence3]))) =
      Except.ok [⟨"app.js".toList, joinLines ["let x = 1".toList] ++ ['\n']⟩] :=
  C7_single_fenced_block_default "js".toList ["let x = 1".toList]
    (by decide) (by decide) (by decide) (by decide)

/-- Claim C9: every entry returned by the extractor has a non-empty path:
either a path token captured by one of the five patterns' regexes, or the
non-empty default `app.js`. -/
theorem C9_paths_nonempty (code : List Char) (fs : List ExtractedFile)
    (h : extract_file_references code = Except.ok fs) :
    ∀ f ∈ fs,
      (isFileToken f.path = true ∨ f.path = "app.js".toList) ∧ f.path ≠ [] := by
  intro f hf
  rcases extract_paths_core h f hf with ht | he
  · exact ⟨Or.inl ht, isFileToken_ne_nil ht⟩
  · exact ⟨Or.inr he, by rw [he]; decide⟩

theorem C9_witness :
    (isFileToken "a.js".toList = true ∨ "a.js".toList = "app.js".toList) ∧
      "a.js".toList ≠ [] :=
  (C9_paths_nonempty _ _
    (extract_doc [] [(⟨"a.js".toList, "js".toList, ["x".toList]⟩, [])]
      (by decide) (by decide))
    ⟨"a.js".toList, joinLines ["x".toList]⟩ (by decide))

/-- Claim C10 (implicit): pattern 1a is searched unanchored, so a line that
contains `**path.ext**` anywhere — with arbitrary other text before and
after the bold token — counts as a path announcement, and when a fenced
block starts on a later line the file at that path is emitted; the token
need not be alone on its line. -/
theorem C10_bold_token_mid_line (l0 pre post p lang : List Char)
    (mids content : List (List Char))
    (hstrip : pyStrip l0 = pre ++ '*' :: '*' :: (p ++ '*' :: '*' :: post))
    (hpre : '*' ∉ pre) (hp : isFileToken p = true) (hnl : '\n' ∉ l0)
    (hlang : ∀ c ∈ lang, isWordChar c = true)
    (hmids : ∀ m ∈ mids, '\n' ∉ m ∧ fence3.isPrefixOf (pyStrip m) = false)
    (hcontent : ∀ c ∈ content, '\n' ∉ c ∧ pyStrip c ≠ fence3) :
    extract_file_references
        (joinLines (l0 :: (mids ++ (fence3 ++ lang) :: (content ++ [fence3])))) =
      Except.ok [⟨p, joinLines content⟩] :=
  extract_prose_bold l0 pre post p lang mids content hstrip hpre hp hnl
    hlang hmids hcontent

theorem C10_witness :
    extract_file_references
        (joinLines ("Here is **src/app.js** updated:".toList ::
          (["some explanation".toList] ++
            (fence3 ++ "js".toList) :: (["code line".toList] ++ [fence3])))) =
      Except.ok [⟨"src/app.js".toList, joinLines ["code line".toList]⟩] :=
  C10_bold_token_mid_line "Here is **src/app.js** updated:".toList
    "Here is ".toList " updated:".toList "src/app.js".toList "js".toList
    ["some explanation".toList] ["code line".toList]
    (by decide) (by decide) (by decide) (by decide) (by decide) (by decide)
    (by decide)
